import Mathlib

/-!
Shallow embedding of the associative-memory engine in
`hopfield_network/hopfield.py` (class `HopfieldNetwork`).

Modelling choices:
* A pattern of length `n` is a function `Fin n → ℤ`; the binary domain
  `{0,1}` is expressed by the predicate `Binary` where a claim needs it.
* The numpy float64 weight matrix is modelled over `ℚ`.  Every weight the
  relevant claims touch is a sum of `±1` products divided by the pattern
  count, and every sign decision the code makes on such weights is exact,
  so the rational model is faithful for those claims.
* numpy's in-place asynchronous sweep (`state[i] = ...` inside the loop)
  becomes a left fold of `Function.update` over the index list
  `List.finRange n`, preserving the 0..n-1 update order and the
  "later neurons see earlier updates" semantics.
* Python's floor division `//` on integers is `Int.fdiv`.
-/

namespace SimpleHopfield

/-- A pattern vector of length `n` (binary `{0,1}` at the boundary). -/
abbrev Pattern (n : ℕ) := Fin n → ℤ

/-- The binary-domain invariant on patterns. -/
def Binary {n : ℕ} (p : Pattern n) : Prop := ∀ i, p i = 0 ∨ p i = 1

instance {n : ℕ} (p : Pattern n) : Decidable (Binary p) := by
  unfold Binary; infer_instance

/-- `bipolar_pattern = 2 * pattern - 1` (hopfield.py line 22). -/
def bipolar {n : ℕ} (p : Pattern n) : Pattern n := fun i => 2 * p i - 1

/-- `(state + 1) // 2` (hopfield.py lines 52 and 60): back to binary. -/
def toBinary {n : ℕ} (s : Pattern n) : Pattern n := fun i => (s i + 1).fdiv 2

/-- Engine state: `self.weights` and `self.patterns` (hopfield.py lines 9-11). -/
structure HopfieldNetwork (n : ℕ) where
  weights : Fin n → Fin n → ℚ
  patterns : List (Pattern n)

/-- `__init__`: all-zero `n × n` matrix, empty pattern store. -/
def HopfieldNetwork.init (n : ℕ) : HopfieldNetwork n :=
  { weights := fun _ _ => 0, patterns := [] }

/--
`train` weight synthesis (hopfield.py lines 19-32): reset to zero, add the
bipolar outer product of every pattern, zero the diagonal, and divide by the
pattern count when it is positive.
-/
def trainWeights (n : ℕ) (ps : List (Pattern n)) : Fin n → Fin n → ℚ :=
  let raw := ps.foldl
    (fun W p => fun i j =>
      W i j + ((bipolar p i : ℤ) : ℚ) * ((bipolar p j : ℤ) : ℚ))
    (fun _ _ => 0)
  let zd := fun i j => if i = j then (0 : ℚ) else raw i j
  if 0 < ps.length then fun i j => zd i j / (ps.length : ℚ) else zd

/-- `train` (hopfield.py lines 13-32): stores the pattern list and rebuilds
the weight matrix from scratch, ignoring the previous matrix. -/
def HopfieldNetwork.train {n : ℕ} (_net : HopfieldNetwork n)
    (ps : List (Pattern n)) : HopfieldNetwork n :=
  { weights := trainWeights n ps, patterns := ps }

/-- `net_input = np.dot(self.weights[i], state)` (hopfield.py line 48). -/
def netInput {n : ℕ} (W : Fin n → Fin n → ℚ) (s : Pattern n) (i : Fin n) : ℚ :=
  ∑ j, W i j * (s j : ℚ)

/-- One asynchronous neuron update (hopfield.py line 49):
`state[i] = 1 if net_input >= 0 else -1`, in place. -/
def updateNeuron {n : ℕ} (W : Fin n → Fin n → ℚ) (s : Pattern n) (i : Fin n) :
    Pattern n :=
  Function.update s i (if 0 ≤ netInput W s i then (1 : ℤ) else -1)

/-- One full sweep `for i in range(self.size)` (hopfield.py lines 47-49),
updating neurons in index order on the in-progress state. -/
def sweep {n : ℕ} (W : Fin n → Fin n → ℚ) (s : Pattern n) : Pattern n :=
  (List.finRange n).foldl (updateNeuron W) s

/--
The iteration loop of `recall` (hopfield.py lines 43-57): up to `m` sweeps,
append the binary snapshot of the post-sweep state to the history after each
sweep, and stop early when the sweep left the state unchanged.
-/
def recallLoop {n : ℕ} (W : Fin n → Fin n → ℚ) :
    ℕ → Pattern n → List (Pattern n) → Pattern n × List (Pattern n)
  | 0, s, hist => (s, hist)
  | m + 1, s, hist =>
      let s2 := sweep W s
      let hist2 := hist ++ [toBinary s2]
      if s2 = s then (s2, hist2) else recallLoop W m s2 hist2

/-- `recall` (hopfield.py lines 34-60): bipolar conversion, history seeded
with a copy of the probe, iteration loop, final binary conversion. -/
def HopfieldNetwork.recall {n : ℕ} (net : HopfieldNetwork n) (p : Pattern n)
    (m : ℕ := 100) : Pattern n × List (Pattern n) :=
  let r := recallLoop net.weights m (bipolar p) [p]
  (toBinary r.1, r.2)

/-- `energy` (hopfield.py lines 62-65):
`-0.5 * np.dot(bipolar, np.dot(self.weights, bipolar))`. -/
def HopfieldNetwork.energy {n : ℕ} (net : HopfieldNetwork n) (p : Pattern n) :
    ℚ :=
  -(1 / 2) * ∑ i, ((bipolar p i : ℤ) : ℚ) *
    ∑ j, net.weights i j * ((bipolar p j : ℤ) : ℚ)

/-- `recall` called with a Python `int` iteration bound: `range(m)` performs
`max(m, 0)` iterations, so a negative bound silently means zero sweeps. -/
def HopfieldNetwork.recallZ {n : ℕ} (net : HopfieldNetwork n) (p : Pattern n)
    (m : ℤ) : Pattern n × List (Pattern n) :=
  net.recall p m.toNat

/-! ### Helper lemmas about training -/

lemma trainWeights_raw_apply {n : ℕ} (ps : List (Pattern n))
    (W0 : Fin n → Fin n → ℚ) (i j : Fin n) :
    (ps.foldl
      (fun W p => fun i j =>
        W i j + ((bipolar p i : ℤ) : ℚ) * ((bipolar p j : ℤ) : ℚ))
      W0) i j
      = W0 i j
        + (ps.map fun p =>
            ((bipolar p i : ℤ) : ℚ) * ((bipolar p j : ℤ) : ℚ)).sum := by
  induction ps generalizing W0 with
  | nil => simp
  | cons q qs ih =>
      simp only [List.foldl_cons, List.map_cons, List.sum_cons]
      rw [ih]
      ring

/-- Closed form of the trained weight matrix. -/
lemma trainWeights_apply {n : ℕ} (ps : List (Pattern n)) (i j : Fin n) :
    trainWeights n ps i j
      = if i = j then 0
        else if 0 < ps.length then
          (ps.map fun p =>
            ((bipolar p i : ℤ) : ℚ) * ((bipolar p j : ℤ) : ℚ)).sum /
            (ps.length : ℚ)
        else (ps.map fun p =>
            ((bipolar p i : ℤ) : ℚ) * ((bipolar p j : ℤ) : ℚ)).sum := by
  unfold trainWeights
  simp only []
  by_cases hl : 0 < ps.length
  · simp only [hl, if_true]
    by_cases hij : i = j
    · simp [hij]
    · simp [hij, trainWeights_raw_apply]
  · simp only [hl, if_false]
    by_cases hij : i = j
    · simp [hij]
    · simp [hij, trainWeights_raw_apply]

/-- Training on a single pattern gives `W i j = v i * v j` off the diagonal. -/
lemma trainWeights_single {n : ℕ} (p : Pattern n) (i j : Fin n) :
    trainWeights n [p] i j
      = if i = j then 0
        else ((bipolar p i : ℤ) : ℚ) * ((bipolar p j : ℤ) : ℚ) := by
  rw [trainWeights_apply]
  simp

/-! ### Helper lemmas about the recall sweep and loop -/

/-- `toBinary` inverts `bipolar` on every integer pattern:
`(2x - 1 + 1) // 2 = x`. -/
lemma toBinary_bipolar {n : ℕ} (p : Pattern n) : toBinary (bipolar p) = p := by
  funext i
  show (2 * p i - 1 + 1).fdiv 2 = p i
  have h : 2 * p i - 1 + 1 = p i * 2 := by ring
  rw [h, Int.mul_fdiv_cancel _ (by norm_num)]

/-- A state every single-neuron update leaves unchanged is a fixed point of
the whole asynchronous sweep. -/
lemma sweep_of_pointwise_fixed {n : ℕ} (W : Fin n → Fin n → ℚ) (s : Pattern n)
    (h : ∀ i, (if 0 ≤ netInput W s i then (1 : ℤ) else -1) = s i) :
    sweep W s = s := by
  unfold sweep
  have hstep : ∀ l : List (Fin n), l.foldl (updateNeuron W) s = s := by
    intro l
    induction l with
    | nil => rfl
    | cons a l ih =>
        have hup : updateNeuron W s a = s := by
          unfold updateNeuron
          rw [h a]
          exact Function.update_eq_self a s
        simp [List.foldl_cons, hup, ih]
  exact hstep _

/-- With an all-zero weight matrix, every net input is zero, so a sweep sets
every neuron to `+1` (the `net >= 0` tie-break). -/
lemma sweep_zero {n : ℕ} (s : Pattern n) :
    sweep (fun _ _ => (0 : ℚ)) s = fun _ => 1 := by
  unfold sweep
  have hup : ∀ (t : Pattern n) (i : Fin n),
      updateNeuron (fun _ _ => (0 : ℚ)) t i = Function.update t i 1 := by
    intro t i
    unfold updateNeuron netInput
    simp
  have hfold : ∀ (l : List (Fin n)) (t : Pattern n),
      l.foldl (updateNeuron (fun _ _ => (0 : ℚ))) t
        = fun j => if j ∈ l then 1 else t j := by
    intro l
    induction l with
    | nil => intro t; funext j; simp
    | cons a l ih =>
        intro t
        funext j
        rw [List.foldl_cons, hup, ih]
        by_cases hjl : j ∈ l
        · simp [hjl]
        · by_cases hja : j = a
          · subst hja
            simp [hjl]
          · simp [hjl, hja, Function.update_noteq hja]
  funext j
  rw [hfold]
  simp [List.mem_finRange]

/-- The recall loop never shortens the history. -/
lemma recallLoop_length_ge {n : ℕ} (W : Fin n → Fin n → ℚ) (m : ℕ)
    (s : Pattern n) (hist : List (Pattern n)) :
    hist.length ≤ (recallLoop W m s hist).2.length := by
  induction m generalizing s hist with
  | zero => simp [recallLoop]
  | succ m ih =>
      rw [recallLoop]
      by_cases hc : sweep W s = s
      · simp [hc]
      · simp only [hc, if_neg hc]
        calc hist.length ≤ (hist ++ [toBinary (sweep W s)]).length := by simp
          _ ≤ _ := ih _ _

/-- The recall loop appends at most one snapshot per remaining iteration. -/
lemma recallLoop_length_le {n : ℕ} (W : Fin n → Fin n → ℚ) (m : ℕ)
    (s : Pattern n) (hist : List (Pattern n)) :
    (recallLoop W m s hist).2.length ≤ hist.length + m := by
  induction m generalizing s hist with
  | zero => simp [recallLoop]
  | succ m ih =>
      rw [recallLoop]
      by_cases hc : sweep W s = s
      · simp [hc]
      · simp only [hc, if_neg hc]
        calc (recallLoop W m (sweep W s) (hist ++ [toBinary (sweep W s)])).2.length
            ≤ (hist ++ [toBinary (sweep W s)]).length + m := ih _ _
          _ = hist.length + (m + 1) := by simp; omega

/-- Along the recall loop, the last history entry is the binary rendering of
the current bipolar state. -/
lemma recallLoop_getLast {n : ℕ} (W : Fin n → Fin n → ℚ) (m : ℕ)
    (s : Pattern n) (hist : List (Pattern n))
    (h : hist.getLast? = some (toBinary s)) :
    (recallLoop W m s hist).2.getLast?
      = some (toBinary (recallLoop W m s hist).1) := by
  induction m generalizing s hist with
  | zero => simpa [recallLoop] using h
  | succ m ih =>
      rw [recallLoop]
      by_cases hc : sweep W s = s
      · simp [hc]
      · simp only [hc, if_neg hc]
        exact ih _ _ (by simp)

/-- Unfolded form of `recall`. -/
lemma recall_eq {n : ℕ} (net : HopfieldNetwork n) (p : Pattern n) (m : ℕ) :
    net.recall p m
      = (toBinary (recallLoop net.weights m (bipolar p) [p]).1,
         (recallLoop net.weights m (bipolar p) [p]).2) := rfl

/-- The recall loop with no remaining iterations returns its inputs. -/
lemma recallLoop_zero {n : ℕ} (W : Fin n → Fin n → ℚ) (s : Pattern n)
    (hist : List (Pattern n)) : recallLoop W 0 s hist = (s, hist) := rfl

/-- A loop step on a sweep-fixed state stops with one more snapshot. -/
lemma recallLoop_succ_fixed {n : ℕ} (W : Fin n → Fin n → ℚ) (m : ℕ)
    (s : Pattern n) (hist : List (Pattern n)) (h : sweep W s = s) :
    recallLoop W (m + 1) s hist = (s, hist ++ [toBinary s]) := by
  rw [recallLoop]
  simp [h]

/-- A loop step on a state the sweep changes recurses on the swept state. -/
lemma recallLoop_succ_of_ne {n : ℕ} (W : Fin n → Fin n → ℚ) (m : ℕ)
    (s : Pattern n) (hist : List (Pattern n)) (h : sweep W s ≠ s) :
    recallLoop W (m + 1) s hist
      = recallLoop W m (sweep W s) (hist ++ [toBinary (sweep W s)]) := by
  rw [recallLoop]
  simp [h]

/-- `(1 + 1) // 2 = 1`: binary rendering of the all-ones bipolar state. -/
lemma toBinary_ones {n : ℕ} :
    toBinary (fun _ => (1 : ℤ) : Pattern n) = fun _ => 1 := by
  funext i
  show ((1 : ℤ) + 1).fdiv 2 = 1
  decide

/-- On the bipolar encoding of a binary pattern, each square `v j * v j` is 1,
so the single-pattern net input at neuron `i` is `(n - 1) * v i`. -/
lemma netInput_train_single {n : ℕ} (p : Pattern n) (hb : Binary p)
    (i : Fin n) :
    netInput (trainWeights n [p]) (bipolar p) i
      = ((n : ℚ) - 1) * ((bipolar p i : ℤ) : ℚ) := by
  have hsq : ∀ j : Fin n,
      ((bipolar p j : ℤ) : ℚ) * ((bipolar p j : ℤ) : ℚ) = 1 := by
    intro j
    rcases hb j with h | h <;> simp [bipolar, h]
  unfold netInput
  have hterm : ∀ j : Fin n,
      trainWeights n [p] i j * ((bipolar p j : ℤ) : ℚ)
        = if i = j then 0 else ((bipolar p i : ℤ) : ℚ) := by
    intro j
    rw [trainWeights_single]
    by_cases hij : i = j
    · simp [hij]
    · rw [if_neg hij, if_neg hij, mul_assoc, hsq j, mul_one]
  rw [Finset.sum_congr rfl (fun j _ => hterm j)]
  have hsplit : ∀ j : Fin n,
      (if i = j then (0 : ℚ) else ((bipolar p i : ℤ) : ℚ))
        = ((bipolar p i : ℤ) : ℚ)
          - (if i = j then ((bipolar p i : ℤ) : ℚ) else 0) := by
    intro j
    by_cases hij : i = j <;> simp [hij]
  rw [Finset.sum_congr rfl (fun j _ => hsplit j), Finset.sum_sub_distrib,
    Finset.sum_const, Finset.sum_ite_eq]
  simp [Fintype.card_fin, nsmul_eq_mul]
  ring

/-- **C1**: after `train`, the weight matrix has zero diagonal; off the
diagonal each entry is the pattern-count-normalised Hebbian sum
`(Σ_k v_k[i]·v_k[j]) / K` when the list is nonempty; an empty list yields the
all-zero matrix; and the previous matrix is fully replaced (training is
independent of the engine's prior state). -/
theorem train_weights_spec (n : ℕ) (net net2 : HopfieldNetwork n)
    (ps : List (Pattern n)) (hbin : ∀ p ∈ ps, Binary p) :
    (∀ i, (net.train ps).weights i i = 0)
    ∧ (ps ≠ [] → ∀ i j, i ≠ j →
        (net.train ps).weights i j
          = (ps.map fun p =>
              ((bipolar p i : ℤ) : ℚ) * ((bipolar p j : ℤ) : ℚ)).sum /
            (ps.length : ℚ))
    ∧ (ps = [] → ∀ i j, (net.train ps).weights i j = 0)
    ∧ net.train ps = net2.train ps := by
  refine ⟨?_, ?_, ?_, rfl⟩
  · intro i
    show trainWeights n ps i i = 0
    rw [trainWeights_apply]
    simp
  · intro hne i j hij
    show trainWeights n ps i j = _
    rw [trainWeights_apply, if_neg hij, if_pos (List.length_pos.mpr hne)]
  · intro he
    subst he
    intro i j
    show trainWeights n [] i j = 0
    rw [trainWeights_apply]
    simp

/-- Witness for C1 at a concrete engine and pattern list. -/
theorem train_weights_spec_witness :
    (∀ p ∈ [(fun _ => 1 : Pattern 2)], Binary p)
    ∧ ((∀ i, ((HopfieldNetwork.init 2).train
          [(fun _ => 1 : Pattern 2)]).weights i i = 0)
      ∧ ([(fun _ => 1 : Pattern 2)] ≠ [] → ∀ i j, i ≠ j →
          ((HopfieldNetwork.init 2).train
            [(fun _ => 1 : Pattern 2)]).weights i j
            = ([(fun _ => 1 : Pattern 2)].map fun p =>
                ((bipolar p i : ℤ) : ℚ) * ((bipolar p j : ℤ) : ℚ)).sum /
              (([(fun _ => 1 : Pattern 2)].length : ℕ) : ℚ))
      ∧ ([(fun _ => 1 : Pattern 2)] = [] → ∀ i j,
          ((HopfieldNetwork.init 2).train
            [(fun _ => 1 : Pattern 2)]).weights i j = 0)
      ∧ (HopfieldNetwork.init 2).train [(fun _ => 1 : Pattern 2)]
          = ((HopfieldNetwork.init 2).train [(fun _ => 0 : Pattern 2)]).train
              [(fun _ => 1 : Pattern 2)]) :=
  ⟨by decide,
   train_weights_spec 2 (HopfieldNetwork.init 2)
     ((HopfieldNetwork.init 2).train [(fun _ => 0 : Pattern 2)])
     [(fun _ => 1 : Pattern 2)] (by decide)⟩

/-- **C5**: every trained weight matrix is symmetric with zero diagonal.
In this pure embedding `recall` and `energy` return values and never produce
a new engine state, so the invariant persists across them by construction. -/
theorem train_weights_symm_zero_diag (n : ℕ) (net : HopfieldNetwork n)
    (ps : List (Pattern n)) :
    (∀ i j, (net.train ps).weights i j = (net.train ps).weights j i)
    ∧ (∀ i, (net.train ps).weights i i = 0) := by
  constructor
  · intro i j
    show trainWeights n ps i j = trainWeights n ps j i
    rw [trainWeights_apply, trainWeights_apply]
    by_cases hij : i = j
    · simp [hij]
    · have hji : ¬j = i := fun h => hij h.symm
      have hmul : (fun p : Pattern n =>
          ((bipolar p i : ℤ) : ℚ) * ((bipolar p j : ℤ) : ℚ))
            = fun p : Pattern n =>
          ((bipolar p j : ℤ) : ℚ) * ((bipolar p i : ℤ) : ℚ) := by
        funext p
        ring
      rw [if_neg hij, if_neg hji, hmul]
  · intro i
    show trainWeights n ps i i = 0
    rw [trainWeights_apply]
    simp

/-- **C6**: the recall history always has between 1 and `max_iterations + 1`
snapshots, and with a zero iteration bound it is exactly the initial probe. -/
theorem recall_history_length (n : ℕ) (net : HopfieldNetwork n)
    (p : Pattern n) (m : ℕ) :
    (1 ≤ (net.recall p m).2.length)
    ∧ ((net.recall p m).2.length ≤ m + 1)
    ∧ (net.recall p 0).2 = [p] := by
  refine ⟨?_, ?_, rfl⟩
  · have h := recallLoop_length_ge net.weights m (bipolar p) [p]
    simpa [HopfieldNetwork.recall] using h
  · have h := recallLoop_length_le net.weights m (bipolar p) [p]
    have h2 : (net.recall p m).2.length ≤ 1 + m := by
      simpa [HopfieldNetwork.recall] using h
    omega

/-- **C10**: the final pattern returned by `recall` is the last history entry,
and with zero sweeps both are the original probe. -/
theorem recall_final_eq_last (n : ℕ) (net : HopfieldNetwork n)
    (p : Pattern n) (m : ℕ) :
    (net.recall p m).2.getLast? = some (net.recall p m).1
    ∧ (net.recall p 0).1 = p := by
  constructor
  · have h := recallLoop_getLast net.weights m (bipolar p) [p]
      (by simp [toBinary_bipolar])
    simpa [HopfieldNetwork.recall] using h
  · exact toBinary_bipolar p

/-- **C2 (counterexample)**: on a size-1 engine trained on the single pattern
`[0]`, recalling `[0]` returns `[1]`, not the stored pattern: the only net
input is `0` and the `net >= 0` tie-break flips the neuron to `+1`. -/
theorem recall_single_pattern_counterexample :
    (((HopfieldNetwork.init 1).train [(fun _ => 0 : Pattern 1)]).recall
        (fun _ => 0 : Pattern 1) 1).1 ≠ (fun _ => 0 : Pattern 1) := by
  have hWz : ((HopfieldNetwork.init 1).train
      [(fun _ => 0 : Pattern 1)]).weights = fun _ _ => (0 : ℚ) := by
    funext i j
    show trainWeights 1 [(fun _ => 0 : Pattern 1)] i j = 0
    rw [trainWeights_single, if_pos (Subsingleton.elim i j)]
  have hs1 : sweep (fun _ _ => (0 : ℚ)) (bipolar (fun _ => 0 : Pattern 1))
      = fun _ => (1 : ℤ) := sweep_zero _
  have hne : sweep (fun _ _ => (0 : ℚ)) (bipolar (fun _ => 0 : Pattern 1))
      ≠ bipolar (fun _ => 0 : Pattern 1) := by
    rw [hs1]
    intro h
    have h0 := congrFun h 0
    simp [bipolar] at h0
  rw [recall_eq, hWz]
  show toBinary
      (recallLoop (fun _ _ => (0 : ℚ)) (0 + 1)
        (bipolar (fun _ => 0 : Pattern 1)) [(fun _ => 0 : Pattern 1)]).1
      ≠ (fun _ => 0 : Pattern 1)
  rw [recallLoop_succ_of_ne _ _ _ _ hne, hs1, recallLoop_zero]
  show toBinary (fun _ => (1 : ℤ) : Pattern 1) ≠ (fun _ => 0 : Pattern 1)
  rw [toBinary_ones]
  intro h
  exact one_ne_zero (congrFun h 0)

/-- **C2 (amended)**: for engines of size `n ≥ 2`, a single trained binary
pattern is a fixed point of recall: with probe `p` and any
`max_iterations ≥ 1`, recall returns `p`. -/
theorem recall_single_pattern_fixed (n : ℕ) (hn : 2 ≤ n)
    (net : HopfieldNetwork n) (p : Pattern n) (hb : Binary p)
    (m : ℕ) (hm : 1 ≤ m) :
    ((net.train [p]).recall p m).1 = p := by
  obtain ⟨k, rfl⟩ : ∃ k, m = k + 1 := ⟨m - 1, by omega⟩
  have h2 : (2 : ℚ) ≤ (n : ℚ) := by exact_mod_cast hn
  have hfix : ∀ i,
      (if 0 ≤ netInput (trainWeights n [p]) (bipolar p) i then (1 : ℤ) else -1)
        = bipolar p i := by
    intro i
    rw [netInput_train_single p hb i]
    rcases hb i with h | h
    · have hbv : bipolar p i = -1 := by simp [bipolar, h]
      rw [hbv]
      have hneg : ¬(0 : ℚ) ≤ ((n : ℚ) - 1) * (((-1 : ℤ) : ℤ) : ℚ) := by
        push_cast
        nlinarith
      simp only [hneg, if_false]
    · have hbv : bipolar p i = 1 := by simp [bipolar, h]
      rw [hbv]
      have hpos : (0 : ℚ) ≤ ((n : ℚ) - 1) * (((1 : ℤ) : ℤ) : ℚ) := by
        push_cast
        nlinarith
      simp only [hpos, if_true]
  have hsweep : sweep (trainWeights n [p]) (bipolar p) = bipolar p :=
    sweep_of_pointwise_fixed _ _ hfix
  have hW : (net.train [p]).weights = trainWeights n [p] := rfl
  rw [recall_eq, hW, recallLoop_succ_fixed _ _ _ _ hsweep]
  exact toBinary_bipolar p

/-- Witness for the amended C2 at `n = 2`, `p = [1,1]`, one iteration. -/
theorem recall_single_pattern_fixed_witness :
    (2 ≤ 2) ∧ Binary (fun _ => 1 : Pattern 2) ∧ (1 ≤ 1)
    ∧ (((HopfieldNetwork.init 2).train [(fun _ => 1 : Pattern 2)]).recall
        (fun _ => 1 : Pattern 2) 1).1 = (fun _ => 1 : Pattern 2) :=
  ⟨by decide, by decide, by decide,
   recall_single_pattern_fixed 2 (by decide) (HopfieldNetwork.init 2)
     (fun _ => 1) (by decide) 1 (by decide)⟩

/-- **C3 (counterexample)**: on an untrained size-1 engine probed with `[0]`
(default iteration bound), the history has length 3, not 2: the first sweep
reaches `[1]` but convergence is only detected on the second sweep. -/
theorem untrained_recall_counterexample :
    ((HopfieldNetwork.init 1).recall (fun _ => 0 : Pattern 1)).2.length ≠ 2 := by
  have hs1 : sweep (fun _ _ => (0 : ℚ)) (bipolar (fun _ => 0 : Pattern 1))
      = fun _ => (1 : ℤ) := sweep_zero _
  have hne : sweep (fun _ _ => (0 : ℚ)) (bipolar (fun _ => 0 : Pattern 1))
      ≠ bipolar (fun _ => 0 : Pattern 1) := by
    rw [hs1]
    intro h
    have h0 := congrFun h 0
    simp [bipolar] at h0
  have hsw2 : sweep (fun _ _ => (0 : ℚ)) (fun _ => (1 : ℤ) : Pattern 1)
      = fun _ => 1 := sweep_zero _
  rw [recall_eq]
  show (recallLoop (fun _ _ => (0 : ℚ)) (99 + 1)
      (bipolar (fun _ => 0 : Pattern 1)) [(fun _ => 0 : Pattern 1)]).2.length ≠ 2
  rw [recallLoop_succ_of_ne _ _ _ _ hne, hs1]
  show (recallLoop (fun _ _ => (0 : ℚ)) (98 + 1) (fun _ => (1 : ℤ) : Pattern 1)
      ([(fun _ => 0 : Pattern 1)]
        ++ [toBinary (fun _ => (1 : ℤ) : Pattern 1)])).2.length ≠ 2
  rw [recallLoop_succ_fixed _ _ _ _ hsw2]
  simp

/-- **C3 (amended)**: recall on an untrained engine returns the all-ones
pattern; the state reaches all-ones after the first sweep, but the history has
length 3 for probes other than all-ones (the convergence check only fires one
sweep later), and length 2 when the probe is already all-ones. -/
theorem untrained_recall_spec (n : ℕ) (p : Pattern n) (_hb : Binary p) :
    ((HopfieldNetwork.init n).recall p).1 = (fun _ => 1)
    ∧ ((HopfieldNetwork.init n).recall p).2.length
        = if p = (fun _ => 1) then 2 else 3 := by
  have hW : (HopfieldNetwork.init n).weights = fun _ _ => (0 : ℚ) := rfl
  have h100 : (100 : ℕ) = 99 + 1 := rfl
  by_cases hp : p = fun _ => 1
  · have hs : bipolar p = fun _ => (1 : ℤ) := by
      funext i
      simp [bipolar, congrFun hp i]
    have hsw : sweep (fun _ _ => (0 : ℚ)) (bipolar p) = bipolar p := by
      rw [sweep_zero, hs]
    constructor
    · rw [recall_eq, hW, h100, recallLoop_succ_fixed _ _ _ _ hsw,
        toBinary_bipolar]
      exact hp
    · rw [recall_eq, hW, h100, recallLoop_succ_fixed _ _ _ _ hsw]
      simp [hp]
  · have hs1 : sweep (fun _ _ => (0 : ℚ)) (bipolar p) = fun _ => (1 : ℤ) :=
      sweep_zero _
    have hne : sweep (fun _ _ => (0 : ℚ)) (bipolar p) ≠ bipolar p := by
      rw [hs1]
      intro hcontra
      apply hp
      funext i
      have hi := congrFun hcontra i
      simp only [bipolar] at hi
      omega
    have hsw2 : sweep (fun _ _ => (0 : ℚ)) (fun _ => (1 : ℤ) : Pattern n)
        = fun _ => 1 := sweep_zero _
    have h99 : (99 : ℕ) = 98 + 1 := rfl
    constructor
    · rw [recall_eq, hW, h100, recallLoop_succ_of_ne _ _ _ _ hne, hs1, h99,
        recallLoop_succ_fixed _ _ _ _ hsw2]
      exact toBinary_ones
    · rw [recall_eq, hW, h100, recallLoop_succ_of_ne _ _ _ _ hne, hs1, h99,
        recallLoop_succ_fixed _ _ _ _ hsw2]
      simp [hp]

/-- Witness for the amended C3 at `n = 1`, probe `[0]`. -/
theorem untrained_recall_spec_witness :
    Binary (fun _ => 0 : Pattern 1)
    ∧ (((HopfieldNetwork.init 1).recall (fun _ => 0 : Pattern 1)).1
        = (fun _ => 1)
      ∧ ((HopfieldNetwork.init 1).recall (fun _ => 0 : Pattern 1)).2.length
          = if (fun _ => 0 : Pattern 1) = (fun _ => 1) then 2 else 3) :=
  ⟨by decide, untrained_recall_spec 1 (fun _ => 0) (by decide)⟩

/-- The bipolar value of a binary entry squares to 1. -/
lemma bipolar_sq {n : ℕ} (p : Pattern n) (hp : Binary p) (j : Fin n) :
    ((bipolar p j : ℤ) : ℚ) * ((bipolar p j : ℤ) : ℚ) = 1 := by
  rcases hp j with h | h <;> simp [bipolar, h]

/-- Closed form of the energy after training on a single binary pattern:
`E(x) = -(1/2) * ((v·w)^2 - n)` where `v`, `w` are the bipolar encodings of
the stored pattern and of `x`. -/
lemma energy_train_single {n : ℕ} (net : HopfieldNetwork n) (p x : Pattern n)
    (hp : Binary p) (hx : Binary x) :
    (net.train [p]).energy x
      = -(1 / 2) *
        ((∑ j, ((bipolar p j : ℤ) : ℚ) * ((bipolar x j : ℤ) : ℚ)) ^ 2
          - (n : ℚ)) := by
  have hW : (net.train [p]).weights = trainWeights n [p] := rfl
  show -(1 / 2) * (∑ i, ((bipolar x i : ℤ) : ℚ) *
      ∑ j, (net.train [p]).weights i j * ((bipolar x j : ℤ) : ℚ)) = _
  rw [hW]
  have hinner : ∀ i : Fin n,
      (∑ j, trainWeights n [p] i j * ((bipolar x j : ℤ) : ℚ))
        = ((bipolar p i : ℤ) : ℚ) *
            (∑ j, ((bipolar p j : ℤ) : ℚ) * ((bipolar x j : ℤ) : ℚ))
          - ((bipolar x i : ℤ) : ℚ) := by
    intro i
    have hterm : ∀ j : Fin n,
        trainWeights n [p] i j * ((bipolar x j : ℤ) : ℚ)
          = ((bipolar p i : ℤ) : ℚ) *
              (((bipolar p j : ℤ) : ℚ) * ((bipolar x j : ℤ) : ℚ))
            - (if i = j then
                ((bipolar p i : ℤ) : ℚ) *
                  (((bipolar p j : ℤ) : ℚ) * ((bipolar x j : ℤ) : ℚ))
              else 0) := by
      intro j
      rw [trainWeights_single]
      by_cases hij : i = j
      · simp [hij]
      · simp only [hij, if_neg hij, if_false, sub_zero]
        ring
    rw [Finset.sum_congr rfl fun j _ => hterm j, Finset.sum_sub_distrib,
      ← Finset.mul_sum, Finset.sum_ite_eq]
    simp only [Finset.mem_univ, if_true]
    rw [← mul_assoc, bipolar_sq p hp i, one_mul]
  rw [Finset.sum_congr rfl fun i _ => by rw [hinner i]]
  have hwv : (∑ i, ((bipolar x i : ℤ) : ℚ) * ((bipolar p i : ℤ) : ℚ))
      = ∑ j, ((bipolar p j : ℤ) : ℚ) * ((bipolar x j : ℤ) : ℚ) :=
    Finset.sum_congr rfl fun i _ => mul_comm _ _
  have hww : (∑ i, ((bipolar x i : ℤ) : ℚ) * ((bipolar x i : ℤ) : ℚ))
      = (n : ℚ) := by
    rw [Finset.sum_congr rfl fun i _ => bipolar_sq x hx i]
    simp
  have hbody : (∑ i, ((bipolar x i : ℤ) : ℚ) *
      (((bipolar p i : ℤ) : ℚ) *
        (∑ j, ((bipolar p j : ℤ) : ℚ) * ((bipolar x j : ℤ) : ℚ))
        - ((bipolar x i : ℤ) : ℚ)))
      = (∑ j, ((bipolar p j : ℤ) : ℚ) * ((bipolar x j : ℤ) : ℚ)) ^ 2
        - (n : ℚ) := by
    have hexp : ∀ i : Fin n, ((bipolar x i : ℤ) : ℚ) *
        (((bipolar p i : ℤ) : ℚ) *
          (∑ j, ((bipolar p j : ℤ) : ℚ) * ((bipolar x j : ℤ) : ℚ))
          - ((bipolar x i : ℤ) : ℚ))
        = ((bipolar x i : ℤ) : ℚ) * ((bipolar p i : ℤ) : ℚ) *
            (∑ j, ((bipolar p j : ℤ) : ℚ) * ((bipolar x j : ℤ) : ℚ))
          - ((bipolar x i : ℤ) : ℚ) * ((bipolar x i : ℤ) : ℚ) := by
      intro i
      ring
    rw [Finset.sum_congr rfl fun i _ => hexp i, Finset.sum_sub_distrib,
      ← Finset.sum_mul, hwv, hww, ← pow_two]
  rw [hbody]

/-- **C7**: for `n ≥ 2`, after training on the single binary pattern `p`,
`p` is a local energy minimum: its energy is at most the energy of any
one-bit flip of `p`.  `energy` is a pure function of the engine and pattern
and produces no new engine state in this embedding. -/
theorem energy_local_min (n : ℕ) (hn : 2 ≤ n) (net : HopfieldNetwork n)
    (p : Pattern n) (hp : Binary p) (k : Fin n) :
    (net.train [p]).energy p
      ≤ (net.train [p]).energy (Function.update p k (1 - p k)) := by
  have hq : Binary (Function.update p k (1 - p k)) := by
    intro i
    by_cases hik : i = k
    · subst hik
      rcases hp i with h | h <;> simp [h]
    · rw [Function.update_noteq hik]
      exact hp i
  rw [energy_train_single net p p hp hp,
    energy_train_single net p _ hp hq]
  have hSp : (∑ j, ((bipolar p j : ℤ) : ℚ) * ((bipolar p j : ℤ) : ℚ))
      = (n : ℚ) := by
    rw [Finset.sum_congr rfl fun j _ => bipolar_sq p hp j]
    simp
  have hSq : (∑ j, ((bipolar p j : ℤ) : ℚ) *
      ((bipolar (Function.update p k (1 - p k)) j : ℤ) : ℚ)) = (n : ℚ) - 2 := by
    have hterm : ∀ j : Fin n, ((bipolar p j : ℤ) : ℚ) *
        ((bipolar (Function.update p k (1 - p k)) j : ℤ) : ℚ)
          = if j = k then -1 else 1 := by
      intro j
      by_cases hjk : j = k
      · subst hjk
        rcases hp j with h | h <;>
          norm_num [bipolar, Function.update_same, h]
      · rw [if_neg hjk]
        have hw : bipolar (Function.update p k (1 - p k)) j = bipolar p j := by
          unfold bipolar
          rw [Function.update_noteq hjk]
        rw [hw]
        exact bipolar_sq p hp j
    rw [Finset.sum_congr rfl fun j _ => hterm j]
    have hsplit : ∀ j : Fin n, (if j = k then (-1 : ℚ) else 1)
        = 1 - (if j = k then (2 : ℚ) else 0) := by
      intro j
      by_cases hjk : j = k <;> norm_num [hjk]
    rw [Finset.sum_congr rfl fun j _ => hsplit j, Finset.sum_sub_distrib,
      Finset.sum_const, Finset.sum_ite_eq']
    simp [Fintype.card_fin]
  rw [hSp, hSq]
  have h2 : (2 : ℚ) ≤ (n : ℚ) := by exact_mod_cast hn
  nlinarith [sq_nonneg ((n : ℚ) - 2)]

/-- Witness for C7 at `n = 2`, `p = [1,1]`, flipping bit 0. -/
theorem energy_local_min_witness :
    (2 ≤ 2) ∧ Binary (fun _ => 1 : Pattern 2)
    ∧ ((HopfieldNetwork.init 2).train [(fun _ => 1 : Pattern 2)]).energy
          (fun _ => 1)
        ≤ ((HopfieldNetwork.init 2).train [(fun _ => 1 : Pattern 2)]).energy
          (Function.update (fun _ => 1 : Pattern 2) 0
            (1 - (fun _ => 1 : Pattern 2) 0)) :=
  ⟨by decide, by decide,
   energy_local_min 2 (by decide) (HopfieldNetwork.init 2) (fun _ => 1)
     (by decide) 0⟩

/-! ### Reference semantics of the stored-pattern list

`self.patterns = patterns` (hopfield.py line 18) is a plain Python
assignment: it stores the very object the caller passed, with no copy.  To
express what the caller's later in-place mutations do to the engine, pattern
arrays live on a heap addressed by naturals; the caller's pattern list and
the engine's stored list are lists of addresses into that heap. -/

/-- A heap of mutable pattern arrays, addressed by naturals. -/
abbrev Heap := ℕ → List ℤ

/-- The part of the engine state that `self.patterns` occupies: a list of
references into the heap. -/
structure PyEngineStore where
  patternRefs : List ℕ

/-- `self.patterns = patterns` (hopfield.py line 18): the engine keeps the
caller's address list itself, not a copy of the arrays. -/
def storePatterns (_e : PyEngineStore) (refs : List ℕ) : PyEngineStore :=
  { patternRefs := refs }

/-- The caller mutates one of its own pattern arrays in place. -/
def heapWrite (h : Heap) (a : ℕ) (v : List ℤ) : Heap :=
  fun x => if x = a then v else h x

/-- The pattern values the engine reports when its stored list is read back
through the heap. -/
def reportedPatterns (h : Heap) (e : PyEngineStore) : List (List ℤ) :=
  e.patternRefs.map h

lemma eq_of_map_eq {α β : Type} {f g : α → β} {l : List α}
    (h : l.map f = l.map g) (a : α) (ha : a ∈ l) : f a = g a := by
  induction l with
  | nil => cases ha
  | cons b l ih =>
      simp only [List.map_cons, List.cons.injEq] at h
      rcases List.mem_cons.mp ha with rfl | ha2
      · exact h.1
      · exact ih h.2 ha2

/-- **C8 (counterexample)**: the engine stored the caller's list at line 18
by reference; after the caller overwrites its pattern array in place, the
patterns the engine reports have changed. -/
theorem stored_patterns_alias_counterexample :
    reportedPatterns
        (heapWrite (fun _ => [(1 : ℤ), 0]) 0 [0, 0])
        (storePatterns ⟨[]⟩ [0])
      ≠ reportedPatterns (fun _ => [(1 : ℤ), 0]) (storePatterns ⟨[]⟩ [0]) := by
  decide

/-- **C8 (amended)**: after training, the engine's stored-pattern list
aliases the caller's list: any in-place change to a referenced pattern array
is visible in the patterns the engine reports. -/
theorem stored_patterns_alias (h : Heap) (e : PyEngineStore) (refs : List ℕ)
    (a : ℕ) (v : List ℤ) (ha : a ∈ refs) (hv : h a ≠ v) :
    reportedPatterns (heapWrite h a v) (storePatterns e refs)
      ≠ reportedPatterns h (storePatterns e refs) := by
  intro hcontra
  unfold reportedPatterns storePatterns at hcontra
  have hpt := eq_of_map_eq hcontra a ha
  unfold heapWrite at hpt
  rw [if_pos rfl] at hpt
  exact hv hpt.symm

/-- Witness for the amended C8: one stored pattern at address 3, mutated
from `[1,0]` to `[7]`. -/
theorem stored_patterns_alias_witness :
    ((3 : ℕ) ∈ [3]) ∧ ((fun _ => [(1 : ℤ), 0]) 3 ≠ [(7 : ℤ)])
    ∧ reportedPatterns (heapWrite (fun _ => [(1 : ℤ), 0]) 3 [7])
          (storePatterns ⟨[]⟩ [3])
        ≠ reportedPatterns (fun _ => [(1 : ℤ), 0]) (storePatterns ⟨[]⟩ [3]) :=
  ⟨by decide, by decide,
   stored_patterns_alias (fun _ => [1, 0]) ⟨[]⟩ [3] 3 [7] (by decide)
     (by decide)⟩

/-- **C9**: `recall` with a negative iteration bound is not rejected:
`range(max_iterations)` is empty, so the call silently performs zero sweeps
and returns the probe with a one-entry history. -/
theorem recall_negative_iterations_eval :
    (HopfieldNetwork.init 1).recallZ (fun _ => 0 : Pattern 1) (-5)
      = ((fun _ => 0 : Pattern 1), [(fun _ => 0 : Pattern 1)]) := by
  have h1 : (HopfieldNetwork.init 1).recallZ (fun _ => 0 : Pattern 1) (-5)
      = (toBinary (bipolar (fun _ => 0 : Pattern 1)),
         [(fun _ => 0 : Pattern 1)]) := rfl
  rw [h1, toBinary_bipolar]

end SimpleHopfield
